import Mathlib

/-!
# Verification of the shadow-domain-ledger core

A shallow embedding, in Lean 4, of the core logic of the
shadow-domain-ledger repository (Go): the `DomainName`/`Label` value types
(`pkg/domain`), the zone-collection registry protocol, the bounded
paginated duplicate search, the mint activity, and the ingestion workflow
(`temporal/workflow.go`).  Strings are modelled as lists of Unicode
characters (`Str`); Go's byte-level operations (`len`, slicing,
prefix/suffix tests) are modelled through an explicit UTF-8 encoding.
External library calls — `strings.ToLower`'s per-rune case mapping and
`idna.Registration.ToUnicode` — are abstracted as function parameters
(`low`, `punyOk`); `base64.StdEncoding.DecodeString` is implemented
directly.  Remote I/O (mirror-node page fetches, Hedera transactions,
registry file reads) is modelled by explicit outcome oracles.
-/

/-- Strings are modelled as lists of characters. -/
abbrev Str := List Char

/-- Go `unicode.IsSpace`: the White_Space code points. -/
def isSpace (c : Char) : Bool :=
  let n := c.toNat
  decide ((9 ≤ n ∧ n ≤ 13) ∨ n = 32 ∨ n = 0x85 ∨ n = 0xA0 ∨ n = 0x1680 ∨
    (0x2000 ≤ n ∧ n ≤ 0x200A) ∨ n = 0x2028 ∨ n = 0x2029 ∨ n = 0x202F ∨
    n = 0x205F ∨ n = 0x3000)

/-- UTF-8 encoding of a character, as its list of bytes (each a `Nat < 256`).
Used to model Go's byte-level string length, slicing and prefix tests. -/
def utf8Encode (c : Char) : List Nat :=
  let n := c.toNat
  if n < 0x80 then [n]
  else if n < 0x800 then [0xC0 + n / 64, 0x80 + n % 64]
  else if n < 0x10000 then [0xE0 + n / 4096, 0x80 + (n / 64) % 64, 0x80 + n % 64]
  else [0xF0 + n / 262144, 0x80 + (n / 4096) % 64, 0x80 + (n / 64) % 64, 0x80 + n % 64]

/-- The UTF-8 byte sequence of a string, as Go stores it. -/
def strBytes (s : Str) : List Nat := (s.map utf8Encode).flatten

/-- Go `len(s)`: the UTF-8 byte length. -/
def byteLen (s : Str) : Nat := (strBytes s).length

/-- Go `strings.HasPrefix`, a byte-level test. -/
def startsWith (p s : Str) : Bool := (strBytes p).isPrefixOf (strBytes s)

/-- Go `strings.HasSuffix`, a byte-level test. -/
def endsWith (p s : Str) : Bool := (strBytes p).isSuffixOf (strBytes s)

/-- Go `strings.TrimSpace`: drop `unicode.IsSpace` characters at both ends. -/
def trimSpace (s : Str) : Str :=
  ((s.dropWhile isSpace).reverse.dropWhile isSpace).reverse

/-- Go `strings.Split(s, sep)` for a one-character separator. -/
def splitChar (sep : Char) : Str → List Str
  | [] => [[]]
  | c :: cs =>
    let r := splitChar sep cs
    if c = sep then [] :: r
    else
      match r with
      | [] => [[c]]
      | h :: t => (c :: h) :: t

example : splitChar '.' "0.0.123".toList = ["0".toList, "0".toList, "123".toList] := by decide

/-- `strconv.ParseUint(s, 10, 64)`: a non-empty all-digit string whose value
fits in 64 bits. -/
def parseUint64 (s : Str) : Option Nat :=
  if s = [] then none
  else if s.all (fun c => decide (48 ≤ c.toNat ∧ c.toNat ≤ 57)) then
    let v := s.foldl (fun a c => a * 10 + (c.toNat - 48)) 0
    if v < 2 ^ 64 then some v else none
  else none

/-- `tokenIDFromString` (temporal/workflow.go): trims space, drops an optional
`-checksum` suffix, and requires exactly `shard.realm.num` with each part a
decimal `uint64`. -/
def tokenIDFromString (s : Str) : Option (Nat × Nat × Nat) :=
  let base := trimSpace s
  if base = [] then none
  else
    let base := base.takeWhile (fun c => c ≠ '-')
    match splitChar '.' base with
    | [p1, p2, p3] =>
      match parseUint64 p1, parseUint64 p2, parseUint64 p3 with
      | some a, some b, some c => some (a, b, c)
      | _, _, _ => none
    | _ => none

/-- `validateTokenExists` (temporal/workflow.go): only a format check —
the token id must parse. -/
def validateTokenExists (tokenID : Str) : Bool := (tokenIDFromString tokenID).isSome

example : validateTokenExists "0.0.12345".toList = true := by decide
example : validateTokenExists "0.0.12345-zzzzz".toList = true := by decide
example : validateTokenExists "0.0".toList = false := by decide
example : validateTokenExists "".toList = false := by decide

/-! ## Label validation (pkg/domain/label.go) -/

/-- The closed set of `Label.Validate` errors. -/
inductive LabelErr where
  | length | dash | doubleDash | idn | char
deriving DecidableEq, Repr

/-- One character of `findInvalidLabelCharacters`' accepted set: ASCII and a
letter, digit or hyphen (Go checks `IsASCII` then `unicode.IsLetter`,
`unicode.IsDigit`, `'-'`; on ASCII these are exactly the ranges below). -/
def isValidLabelChar (c : Char) : Bool :=
  let n := c.toNat
  decide (n ≤ 127 ∧ ((65 ≤ n ∧ n ≤ 90) ∨ (97 ≤ n ∧ n ≤ 122) ∨ (48 ≤ n ∧ n ≤ 57) ∨ n = 45))

/-- `Label.Validate` (pkg/domain/label.go), with `punyOk` abstracting success of
`idna.Registration.ToUnicode`.  Checks, in source order: byte length 1–63;
leading/trailing hyphen; bytes 2–3 equal to `--` on a non-`xn--` label of byte
length > 3; `xn--` labels must satisfy `punyOk`; all characters in the valid
set. -/
def labelValidate (punyOk : Str → Bool) (t : Str) : Option LabelErr :=
  if byteLen t > 63 || byteLen t < 1 then some .length
  else if startsWith "-".toList t || endsWith "-".toList t then some .dash
  else if byteLen t > 3 && !startsWith "xn--".toList t &&
      ((strBytes t).drop 2).take 2 = [45, 45] then some .doubleDash
  else if startsWith "xn--".toList t && !punyOk t then some .idn
  else if t.all isValidLabelChar then none
  else some .char

example : labelValidate (fun _ => true) "abc123".toList = none := by decide
example : labelValidate (fun _ => true) "abc_123".toList = some .char := by decide
example : labelValidate (fun _ => true) "abc123-".toList = some .dash := by decide
example : labelValidate (fun _ => true) "-abc".toList = some .dash := by decide
example : labelValidate (fun _ => true) "ab--c123def".toList = some .doubleDash := by decide
example : labelValidate (fun _ => true) "abc--def".toList = none := by decide
example : labelValidate (fun _ => true) "xn--abc".toList = none := by decide
example : labelValidate (fun _ => false) "xn--abc".toList = some .idn := by decide
example : labelValidate (fun _ => true) "".toList = some .length := by decide

/-! ## String normalization (pkg/domain/stringNormalizer.go) -/

/-- Go `strings.ReplaceAll` for a one-character pattern and replacement. -/
def replaceAllChar (a b : Char) (s : Str) : Str :=
  s.map (fun c => if c = a then b else c)

/-- Go `strings.Fields`: maximal runs of non-space characters. -/
def fieldsAux (acc : Str) : Str → List Str
  | [] => if acc = [] then [] else [acc.reverse]
  | c :: cs =>
    if isSpace c then
      if acc = [] then fieldsAux [] cs else acc.reverse :: fieldsAux [] cs
    else fieldsAux (c :: acc) cs

def fields (s : Str) : List Str := fieldsAux [] s

example : fields "  a  bc \t d ".toList = ["a".toList, "bc".toList, "d".toList] := by decide

/-- Go `strings.Join(l, " ")`. -/
def joinWithSpace : List Str → Str
  | [] => []
  | [x] => x
  | x :: xs => x ++ ' ' :: joinWithSpace xs

/-- `ReplaceMultipleSpaces`: `strings.Join(strings.Fields(s), " ")`. -/
def replaceMultipleSpaces (s : Str) : Str := joinWithSpace (fields s)

/-- `RemoveTrailingDot`: `strings.TrimSuffix(s, ".")`. -/
def removeTrailingDot (s : Str) : Str :=
  if s.getLast? = some '.' then s.dropLast else s

/-- `NormalizeString` (pkg/domain/stringNormalizer.go): newline/tab/CR → space,
collapse whitespace, strip one trailing dot, trim surrounding space. -/
def NormalizeString (s : Str) : Str :=
  trimSpace (removeTrailingDot (replaceMultipleSpaces
    (replaceAllChar '\r' ' ' (replaceAllChar '\t' ' ' (replaceAllChar '\n' ' ' s)))))

example : NormalizeString "example.com.".toList = "example.com".toList := by decide
example : NormalizeString " a \n b. ".toList = "a b".toList := by decide

/-! ## DomainName construction (pkg/domain, unnamed/part_001) -/

/-- `strings.Trim(s, ".")`: drop leading and trailing dots. -/
def trimDots (s : Str) : Str :=
  ((s.dropWhile (fun c => c = '.')).reverse.dropWhile (fun c => c = '.')).reverse

/-- The `DomainName.Validate` errors. -/
inductive DomainErr where
  | length | label (e : LabelErr)
deriving DecidableEq, Repr

/-- `DomainName.Validate`: byte length 1–253, then the first failing label's
error (labels are the dot-separated parts). -/
def domainValidate (punyOk : Str → Bool) (d : Str) : Option DomainErr :=
  if byteLen d > 253 || byteLen d < 1 then some .length
  else ((splitChar '.' d).findSome? (labelValidate punyOk)).map .label

/-- `DomainName.Label()`: the leftmost dot-separated part. -/
def labelOf (d : Str) : Str := ((splitChar '.' d).headD [])

/-- `strings.ToLower` applied rune by rune; the per-rune case mapping `low`
abstracts Go's `unicode.ToLower`. -/
def toLowerStr (low : Char → Char) (s : Str) : Str := s.map low

/-- `NewDomainName` (unnamed/part_001): lowercase, `NormalizeString`, trim
leading/trailing dots, then validate; returns the constructed value on
success. -/
def NewDomainName (low : Char → Char) (punyOk : Str → Bool) (name : Str) : Option Str :=
  match domainValidate punyOk (trimDots (NormalizeString (toLowerStr low name))) with
  | some _ => none
  | none => some (trimDots (NormalizeString (toLowerStr low name)))

/-- The ASCII case mapping: Go `strings.ToLower` restricted to ASCII input. -/
def asciiLow (c : Char) : Char :=
  if 65 ≤ c.toNat ∧ c.toNat ≤ 90 then Char.ofNat (c.toNat + 32) else c

example : toLowerStr asciiLow "EXAMPLE.COM.".toList = "example.com.".toList := by decide
example : NewDomainName asciiLow (fun _ => true) "EXAMPLE.COM.".toList = some "example.com".toList := by decide
example : NewDomainName asciiLow (fun _ => true) "example_com".toList = none := by decide
example : labelOf "example.com".toList = "example".toList := by decide

/-! ## Base64 (Go `encoding/base64` StdEncoding decode) -/

/-- Value of a standard-alphabet base64 character. -/
def b64Val (c : Char) : Option Nat :=
  let n := c.toNat
  if 65 ≤ n ∧ n ≤ 90 then some (n - 65)
  else if 97 ≤ n ∧ n ≤ 122 then some (n - 71)
  else if 48 ≤ n ∧ n ≤ 57 then some (n + 4)
  else if n = 43 then some 62
  else if n = 47 then some 63
  else none

/-- Decode base64 quartets; padding (`=`) only in the final quartet.  The
decoded bytes are returned as characters (Go compares the decoded byte string
directly against the label). -/
def b64Quartets : Str → Option Str
  | [] => some []
  | a :: b :: c :: d :: rest =>
    match b64Val a, b64Val b with
    | some va, some vb =>
      if c = '=' then
        if d = '=' ∧ rest = [] then some [Char.ofNat (va * 4 + vb / 16)] else none
      else
        match b64Val c with
        | some vc =>
          if d = '=' then
            if rest = [] then
              some [Char.ofNat (va * 4 + vb / 16), Char.ofNat (vb % 16 * 16 + vc / 4)]
            else none
          else
            match b64Val d with
            | some vd =>
              (b64Quartets rest).map (fun tail =>
                Char.ofNat (va * 4 + vb / 16) :: Char.ofNat (vb % 16 * 16 + vc / 4) ::
                  Char.ofNat (vc % 4 * 64 + vd) :: tail)
            | none => none
        | none => none
    | _, _ => none
  | _ => none

/-- `base64.StdEncoding.DecodeString`: newlines are ignored, the rest must be
full quartets over the standard alphabet with trailing padding. -/
def base64Decode (s : Str) : Option Str :=
  b64Quartets (s.filter (fun c => c ≠ '\r' ∧ c ≠ '\n'))

example : base64Decode "ZXhhbXBsZQ==".toList = some "example".toList := by decide
example : base64Decode "Zm9v".toList = some "foo".toList := by decide
example : base64Decode "example".toList = none := by decide
example : base64Decode "".toList = some [] := by decide

/-! ## Duplicate search (searchForDomainInCollection, temporal/workflow.go) -/

/-- A mirror-node NFT item (`MirrorNodeNFT`). -/
structure MirrorNodeNFT where
  tokenID : Str
  serialNumber : Nat
  metadata : Str
  createdAt : Str
deriving DecidableEq, Repr

/-- The `links.next` field of a page: absent, present but not parseable as a
URL, or a usable link. -/
inductive NextLink where
  | missing | unparseable | link
deriving DecidableEq, Repr

/-- Outcome of one mirror-node page fetch, as observed by the search loop. -/
inductive FetchResult where
  | transportError
  | notFound404
  | badStatus (code : Nat)
  | decodeFailure
  | page (nfts : List MirrorNodeNFT) (next : NextLink)
deriving DecidableEq, Repr

/-- The per-item comparison of `searchForDomainInCollection`: trim the
metadata, base64-decode it if possible, and match if either representation
equals the expected label. -/
def nftMatches (expectedLabel : Str) (nft : MirrorNodeNFT) : Bool :=
  let actualMetadata := trimSpace nft.metadata
  let decodedMetadata :=
    match base64Decode actualMetadata with
    | some d => d
    | none => actualMetadata
  decodedMetadata = expectedLabel || actualMetadata = expectedLabel

def maxPagesToCheck : Nat := 50
def pageSize : Nat := 100

/-- Outcome of the whole search. -/
inductive SearchOutcome where
  | found (nft : MirrorNodeNFT)
  | notFound
  | searchError
deriving DecidableEq, Repr

structure SearchResult where
  outcome : SearchOutcome
  pagesFetched : Nat
deriving DecidableEq, Repr

/-- The search loop from page index `i`, with `remaining` pages allowed by the
cap; `fetch limit i` is the response to `GET …limit={limit}` for the `i`-th
page of the chain. -/
def searchFrom (fetch : Nat → Nat → FetchResult) (expectedLabel : Str) :
    Nat → Nat → SearchResult
  | _, 0 => ⟨.notFound, maxPagesToCheck⟩
  | i, remaining + 1 =>
    match fetch pageSize i with
    | .transportError => ⟨.searchError, i + 1⟩
    | .notFound404 => ⟨.notFound, i + 1⟩
    | .badStatus _ => ⟨.searchError, i + 1⟩
    | .decodeFailure => ⟨.searchError, i + 1⟩
    | .page nfts next =>
      match nfts.find? (nftMatches expectedLabel) with
      | some nft => ⟨.found nft, i + 1⟩
      | none =>
        match next with
        | .missing => ⟨.notFound, i + 1⟩
        | .unparseable => ⟨.notFound, i + 1⟩
        | .link => searchFrom fetch expectedLabel (i + 1) remaining

/-- `searchForDomainInCollection`: newest-first pages of size 100, hard cap of
50 pages, early termination on the first match. -/
def searchForDomainInCollection (fetch : Nat → Nat → FetchResult)
    (expectedLabel : Str) : SearchResult :=
  searchFrom fetch expectedLabel 0 maxPagesToCheck

/-- `isDomainAlreadyMinted`: construct the domain name, search the collection
for its leftmost label. -/
def isDomainAlreadyMinted (low : Char → Char) (punyOk : Str → Bool)
    (fetch : Nat → Nat → FetchResult) (domainName : Str) :
    Except Unit (Bool × MirrorNodeNFT) :=
  match NewDomainName low punyOk domainName with
  | none => .error ()
  | some dn =>
    let expectedLabel := labelOf dn
    match searchForDomainInCollection fetch expectedLabel with
    | ⟨.searchError, _⟩ => .error ()
    | ⟨.found nft, _⟩ => .ok (true, nft)
    | ⟨.notFound, _⟩ => .ok (false, ⟨[], 0, [], []⟩)

/-! ## Zone collection registry (temporal/workflow.go, temporal/shared.go) -/

/-- `ZoneCollectionInfo` (temporal/shared.go). -/
structure ZoneCollectionInfo where
  zone : Str
  tokenID : Str
  tokenName : Str
  tokenSymbol : Str
  createdAt : Nat
  createdBy : Str
deriving DecidableEq, Repr

/-- `ZoneRegistry`: the persisted zone → collection mapping. -/
structure ZoneRegistry where
  collections : Str → Option ZoneCollectionInfo
  lastUpdated : Nat

/-- The empty collections mapping (cold start). -/
def emptyCollections : Str → Option ZoneCollectionInfo := fun _ => none

/-- Outcome of reading and decoding the registry file. -/
inductive LoadOutcome where
  | notExist
  | ioError
  | jsonError
  | okFile (r : ZoneRegistry)

/-- `loadZoneRegistry`: a missing file is an empty registry; any other read or
unmarshal failure is an error. -/
def loadZoneRegistry (o : LoadOutcome) (now : Nat) : Except Unit ZoneRegistry :=
  match o with
  | .notExist => .ok ⟨emptyCollections, now⟩
  | .ioError => .error ()
  | .jsonError => .error ()
  | .okFile r => .ok r

/-- What one `LookupOrCreateZoneCollectionActivity` call did. -/
structure LookupOutcome where
  result : Except Unit ZoneCollectionInfo
  saved : Option ZoneRegistry
  createdNew : Bool

/-- `searchForZoneCollection`: by design currently always reports not found. -/
def searchForZoneCollection (_zone : Str) : ZoneCollectionInfo × Bool :=
  (⟨[], [], [], [], 0, []⟩, false)

/-- The tail of `LookupOrCreateZoneCollectionActivity` after the registry-entry
check: remote search (a no-op), then creation via the ledger, registry update
and persist.  `createOutcome` is the result of `CreateNFTCollectionActivity`. -/
def lookupContinue (registry : ZoneRegistry)
    (createOutcome : Except Unit ZoneCollectionInfo) (now : Nat) (zone : Str) :
    LookupOutcome :=
  match searchForZoneCollection zone with
  | (found, true) =>
    let reg' := { registry with collections := fun z => if z = zone then some found else registry.collections z }
    ⟨.ok found, some reg', false⟩
  | (_, false) =>
    match createOutcome with
    | .error e => ⟨.error e, none, true⟩
    | .ok newCollection =>
      let reg' : ZoneRegistry :=
        ⟨fun z => if z = zone then some newCollection else registry.collections z, now⟩
      ⟨.ok newCollection, some reg', true⟩

/-- `LookupOrCreateZoneCollectionActivity`: load the registry (falling back to
a fresh empty registry on a load error, with only a warning); return a
registered entry if its token id is well-formed, dropping it as stale
otherwise; else search (no-op) and create. -/
def LookupOrCreateZoneCollectionActivity (load : LoadOutcome)
    (createOutcome : Except Unit ZoneCollectionInfo) (now : Nat) (zone : Str) :
    LookupOutcome :=
  let registry :=
    match loadZoneRegistry load now with
    | .ok r => r
    | .error _ => ⟨emptyCollections, now⟩
  match registry.collections zone with
  | some collection =>
    if validateTokenExists collection.tokenID then ⟨.ok collection, none, false⟩
    else
      lookupContinue
        { registry with collections := fun z => if z = zone then none else registry.collections z }
        createOutcome now zone
  | none => lookupContinue registry createOutcome now zone

/-! ## Mint activity (MintNFTActivity, temporal/workflow.go) -/

/-- `MintingInfo` (temporal/shared.go). -/
structure MintingInfo where
  domainName : Str
  registrationTime : Nat
  registrarID : Str
  zone : Str
  fullEventJSON : Str
deriving DecidableEq, Repr

/-- The external outcomes `MintNFTActivity` depends on: the mirror-node fetch
oracle, credential loading, and the mint transaction (execute + receipt). -/
structure MintEnv where
  fetch : Nat → Nat → FetchResult
  credsOutcome : Except Unit Unit
  execOutcome : Except Unit Unit

/-- Result of `MintNFTActivity`, with whether the mint transaction was
actually attempted (`mintTx.Execute` reached). -/
structure MintOutcome where
  result : Except Unit Unit
  mintAttempted : Bool
deriving Repr

/-- The mint path of `MintNFTActivity` after the duplicate check: load
credentials, parse the collection token id, construct the domain name (its
label becomes the metadata), then execute the mint transaction. -/
def mintProceed (low : Char → Char) (punyOk : Str → Bool) (env : MintEnv)
    (info : MintingInfo) (zoneCollection : ZoneCollectionInfo) : MintOutcome :=
  match env.credsOutcome with
  | .error e => ⟨.error e, false⟩
  | .ok _ =>
    match tokenIDFromString zoneCollection.tokenID with
    | none => ⟨.error (), false⟩
    | some _ =>
      match NewDomainName low punyOk info.domainName with
      | none => ⟨.error (), false⟩
      | some _ =>
        match env.execOutcome with
        | .error e => ⟨.error e, true⟩
        | .ok _ => ⟨.ok (), true⟩

/-- `MintNFTActivity`: duplicate check first; a check error only logs a
warning and the mint proceeds; an already-minted domain returns success
without touching the ledger. -/
def MintNFTActivity (low : Char → Char) (punyOk : Str → Bool) (env : MintEnv)
    (info : MintingInfo) (zoneCollection : ZoneCollectionInfo) : MintOutcome :=
  match isDomainAlreadyMinted low punyOk env.fetch info.domainName with
  | .error _ => mintProceed low punyOk env info zoneCollection
  | .ok (true, _) => ⟨.ok (), false⟩
  | .ok (false, _) => mintProceed low punyOk env info zoneCollection

/-! ## Ingestion workflow (IngestFileWorkflow, temporal/workflow.go) -/

/-- Group minting infos by zone, preserving first-seen zone order and input
order within each zone (the content of the workflow's `zoneGroups` map). -/
def insertGrouped (g : List (Str × List MintingInfo)) (i : MintingInfo) :
    List (Str × List MintingInfo) :=
  match g with
  | [] => [(i.zone, [i])]
  | (z, ds) :: rest =>
    if z = i.zone then (z, ds ++ [i]) :: rest else (z, ds) :: insertGrouped rest i

def groupByZone (infos : List MintingInfo) : List (Str × List MintingInfo) :=
  infos.foldl insertGrouped []

/-- Activity outcomes as the workflow observes them. -/
structure WorkflowOracles where
  readFile : Except Unit (List Str)
  parse : List Str → Except Unit (List MintingInfo)
  lookup : Str → Except Unit ZoneCollectionInfo
  mint : MintingInfo → ZoneCollectionInfo → Except Unit Unit

/-- One attempted mint call: zone, record, and its outcome. -/
structure MintAttempt where
  zone : Str
  info : MintingInfo
  outcome : Except Unit Unit

/-- The inner domain loop: every domain is attempted; a failure only logs and
continues. -/
def processDomains (mint : MintingInfo → ZoneCollectionInfo → Except Unit Unit)
    (zone : Str) (collection : ZoneCollectionInfo) :
    List MintingInfo → List MintAttempt
  | [] => []
  | info :: rest =>
    ⟨zone, info, mint info collection⟩ :: processDomains mint zone collection rest

/-- The zone loop: a lookup failure skips the zone (`continue`); otherwise all
its domains are attempted. -/
def processZones (lookup : Str → Except Unit ZoneCollectionInfo)
    (mint : MintingInfo → ZoneCollectionInfo → Except Unit Unit) :
    List (Str × List MintingInfo) → List MintAttempt
  | [] => []
  | (zone, domainInfos) :: rest =>
    match lookup zone with
    | .error _ => processZones lookup mint rest
    | .ok collection =>
      processDomains mint zone collection domainInfos ++ processZones lookup mint rest

/-- `IngestFileWorkflow`: read, parse, group by zone, then the nested loops.
Returns the workflow result together with the trace of attempted mint calls. -/
def IngestFileWorkflow (o : WorkflowOracles) : Except Unit Unit × List MintAttempt :=
  match o.readFile with
  | .error e => (.error e, [])
  | .ok lines =>
    match o.parse lines with
    | .error e => (.error e, [])
    | .ok mintingInfos =>
      (.ok (), processZones o.lookup o.mint (groupByZone mintingInfos))

/-! ## Claim C1: the registry keeps at most one collection per zone -/

/-- C1: if the persisted registry already holds an entry for the zone and the
entry's collection id is well-formed (it parses as `shard.realm.num`, with an
optional checksum suffix, per `tokenIDFromString`), then
`LookupOrCreateZoneCollectionActivity` returns exactly that entry, does not
invoke collection creation, and persists nothing — so a second run over the
same registry never produces a second collection for a zone already present. -/
theorem lookupOrCreate_returns_existing_entry (r : ZoneRegistry) (zone : Str)
    (c : ZoneCollectionInfo) (createOutcome : Except Unit ZoneCollectionInfo) (now : Nat)
    (hmem : r.collections zone = some c)
    (hvalid : validateTokenExists c.tokenID = true) :
    LookupOrCreateZoneCollectionActivity (.okFile r) createOutcome now zone =
      ⟨.ok c, none, false⟩ := by
  simp [LookupOrCreateZoneCollectionActivity, loadZoneRegistry, hmem, hvalid]

def comCollection : ZoneCollectionInfo :=
  ⟨"com".toList, "0.0.12345".toList, [], [], 0, []⟩

def comRegistry : ZoneRegistry :=
  ⟨fun z => if z = "com".toList then some comCollection else none, 7⟩

/-- Witness for C1 at a concrete registry holding a well-formed entry for
zone `com`. -/
theorem lookupOrCreate_returns_existing_entry_witness :
    comRegistry.collections "com".toList = some comCollection ∧
    validateTokenExists comCollection.tokenID = true ∧
    LookupOrCreateZoneCollectionActivity (.okFile comRegistry) (.error ()) 9 "com".toList =
      ⟨.ok comCollection, none, false⟩ := by
  refine ⟨by decide, by decide, ?_⟩
  exact lookupOrCreate_returns_existing_entry comRegistry "com".toList comCollection
    (.error ()) 9 (by decide) (by decide)

/-! ## Claim C4: registry load errors (corrected) -/

/-- C4 counterexample: a registry read failure other than absence does NOT
propagate out of `LookupOrCreateZoneCollectionActivity` — the loader reports
the error, but the activity swallows it, proceeds with a fresh empty registry
and completes the provisioning (here returning the freshly created
collection). -/
theorem loadError_not_propagated :
    loadZoneRegistry .ioError 5 = .error () ∧
    (LookupOrCreateZoneCollectionActivity .ioError
      (.ok ⟨"app".toList, "0.0.77".toList, [], [], 3, []⟩) 5 "app".toList).result =
      .ok ⟨"app".toList, "0.0.77".toList, [], [], 3, []⟩ := by
  exact ⟨rfl, rfl⟩

/-- C4 amended: absence of the persisted registry file is treated by the
loader as an empty registry and is not an error; any other I/O (or decode)
failure makes the loader report an error, but `LookupOrCreate` catches it and
behaves exactly as if the file were absent (fresh empty registry), instead of
failing the zone's provisioning step. -/
theorem loadZoneRegistry_absence_vs_error :
    (∀ now, loadZoneRegistry .notExist now = .ok ⟨emptyCollections, now⟩) ∧
    (∀ now, loadZoneRegistry .ioError now = .error ()) ∧
    (∀ now, loadZoneRegistry .jsonError now = .error ()) ∧
    (∀ createOutcome now zone,
      LookupOrCreateZoneCollectionActivity .ioError createOutcome now zone =
        LookupOrCreateZoneCollectionActivity .notExist createOutcome now zone) := by
  exact ⟨fun _ => rfl, fun _ => rfl, fun _ => rfl, fun _ _ _ => rfl⟩

/-! ## Claim C5: partial-failure isolation in the workflow -/

theorem processDomains_eq_map (mint : MintingInfo → ZoneCollectionInfo → Except Unit Unit)
    (zone : Str) (collection : ZoneCollectionInfo) (ds : List MintingInfo) :
    processDomains mint zone collection ds =
      ds.map (fun i => ⟨zone, i, mint i collection⟩) := by
  induction ds with
  | nil => rfl
  | cons i rest ih => simp [processDomains, ih]

theorem processZones_eq_flatMap (lookup : Str → Except Unit ZoneCollectionInfo)
    (mint : MintingInfo → ZoneCollectionInfo → Except Unit Unit)
    (groups : List (Str × List MintingInfo)) :
    processZones lookup mint groups = groups.flatMap (fun g =>
      match lookup g.1 with
      | .error _ => []
      | .ok coll => g.2.map (fun i => ⟨g.1, i, mint i coll⟩)) := by
  induction groups with
  | nil => rfl
  | cons g rest ih =>
    obtain ⟨zone, ds⟩ := g
    cases h : lookup zone with
    | error e => simp [processZones, h, ih]
    | ok coll => simp [processZones, h, ih, processDomains_eq_map]

/-- C5: a read or parse failure aborts the whole run with no mint attempts; on
success the trace of attempted mints is exactly: for every zone group (in
grouping order), nothing if that zone's collection lookup failed, and
otherwise one attempt per domain of the zone — so one zone's provisioning
failure skips only that zone's domains, and one domain's mint failure (its
attempt records the error) never prevents the remaining attempts. -/
theorem ingest_partial_failure_isolation (o : WorkflowOracles) :
    (∀ e, o.readFile = .error e → IngestFileWorkflow o = (.error e, [])) ∧
    (∀ lines e, o.readFile = .ok lines → o.parse lines = .error e →
      IngestFileWorkflow o = (.error e, [])) ∧
    (∀ lines infos, o.readFile = .ok lines → o.parse lines = .ok infos →
      IngestFileWorkflow o =
        (.ok (), (groupByZone infos).flatMap (fun g =>
          match o.lookup g.1 with
          | .error _ => []
          | .ok coll => g.2.map (fun i => ⟨g.1, i, o.mint i coll⟩)))) := by
  refine ⟨?_, ?_, ?_⟩
  · intro e h
    simp [IngestFileWorkflow, h]
  · intro lines e h1 h2
    simp [IngestFileWorkflow, h1, h2]
  · intro lines infos h1 h2
    simp [IngestFileWorkflow, h1, h2, processZones_eq_flatMap]

def wfInfoA1 : MintingInfo := ⟨"a1.app".toList, 0, "R1".toList, "app".toList, []⟩
def wfInfoA2 : MintingInfo := ⟨"a2.app".toList, 0, "R1".toList, "app".toList, []⟩
def wfInfoB1 : MintingInfo := ⟨"b1.bad".toList, 0, "R1".toList, "bad".toList, []⟩
def wfCollApp : ZoneCollectionInfo := ⟨"app".toList, "0.0.1".toList, [], [], 0, []⟩

def wfOracles : WorkflowOracles :=
  { readFile := .ok [[]],
    parse := fun _ => .ok [wfInfoA1, wfInfoB1, wfInfoA2],
    lookup := fun z => if z = "app".toList then .ok wfCollApp else .error (),
    mint := fun i _ => if i = wfInfoA2 then .error () else .ok () }

/-- Witness for C5: zone `bad` fails provisioning and contributes no attempts;
zone `app` still attempts both of its domains even though the second mint
fails. -/
theorem ingest_partial_failure_isolation_witness :
    wfOracles.readFile = .ok [[]] ∧
    wfOracles.parse [[]] = .ok [wfInfoA1, wfInfoB1, wfInfoA2] ∧
    IngestFileWorkflow wfOracles =
      (.ok (), [⟨"app".toList, wfInfoA1, .ok ()⟩, ⟨"app".toList, wfInfoA2, .error ()⟩]) := by
  refine ⟨rfl, rfl, ?_⟩
  have h := (ingest_partial_failure_isolation wfOracles).2.2
    [[]] [wfInfoA1, wfInfoB1, wfInfoA2] rfl rfl
  rw [h]
  rfl

/-! ## Claim C6: fail-open duplicate check in MintNFTActivity -/

/-- C6: when the duplicate check errors, `MintNFTActivity` behaves exactly as
the unconditional mint path `mintProceed` (which never consults the mirror
node): the error is only logged, and if credentials load, the collection token
id parses and the domain name constructs, the mint transaction is attempted. -/
theorem mint_fail_open (low : Char → Char) (punyOk : Str → Bool) (env : MintEnv)
    (info : MintingInfo) (zc : ZoneCollectionInfo)
    (h : isDomainAlreadyMinted low punyOk env.fetch info.domainName = .error ()) :
    MintNFTActivity low punyOk env info zc = mintProceed low punyOk env info zc ∧
    (env.credsOutcome = .ok () → (tokenIDFromString zc.tokenID).isSome = true →
      (NewDomainName low punyOk info.domainName).isSome = true →
      (MintNFTActivity low punyOk env info zc).mintAttempted = true) := by
  have h1 : MintNFTActivity low punyOk env info zc = mintProceed low punyOk env info zc := by
    simp [MintNFTActivity, h]
  refine ⟨h1, fun hc ht hd => ?_⟩
  rw [h1]
  obtain ⟨tid, htid⟩ := Option.isSome_iff_exists.mp ht
  obtain ⟨dn, hdn⟩ := Option.isSome_iff_exists.mp hd
  cases he : env.execOutcome <;> simp [mintProceed, hc, htid, hdn, he]

def mintEnvErrCheck : MintEnv := ⟨fun _ _ => .transportError, .ok (), .ok ()⟩
def mintInfoEx : MintingInfo := ⟨"example.com".toList, 0, "R1".toList, "com".toList, []⟩
def zcEx : ZoneCollectionInfo := ⟨"com".toList, "0.0.100".toList, [], [], 0, []⟩

/-- Witness for C6: with a mirror node that always fails transport, the check
errors and the mint transaction is still attempted. -/
theorem mint_fail_open_witness :
    isDomainAlreadyMinted asciiLow (fun _ => true) mintEnvErrCheck.fetch
      mintInfoEx.domainName = .error () ∧
    (MintNFTActivity asciiLow (fun _ => true) mintEnvErrCheck mintInfoEx zcEx).mintAttempted
      = true := by
  refine ⟨rfl, ?_⟩
  exact (mint_fail_open asciiLow (fun _ => true) mintEnvErrCheck mintInfoEx zcEx rfl).2
    rfl rfl rfl

/-! ## Claim C10: an already-minted domain is a silent success -/

/-- C10: when the duplicate search reports the domain as already minted,
`MintNFTActivity` returns success without attempting the mint transaction,
and that return value is identical to the one produced by a fresh fully
successful mint — the two cases are indistinguishable by return value. -/
theorem mint_skip_duplicate (low : Char → Char) (punyOk : Str → Bool) (env : MintEnv)
    (info : MintingInfo) (zc : ZoneCollectionInfo) (n : MirrorNodeNFT)
    (h : isDomainAlreadyMinted low punyOk env.fetch info.domainName = .ok (true, n)) :
    MintNFTActivity low punyOk env info zc = ⟨.ok (), false⟩ ∧
    (∀ env' : MintEnv, env'.credsOutcome = .ok () → env'.execOutcome = .ok () →
      (tokenIDFromString zc.tokenID).isSome = true →
      (NewDomainName low punyOk info.domainName).isSome = true →
      (mintProceed low punyOk env' info zc).result =
        (MintNFTActivity low punyOk env info zc).result) := by
  have h1 : MintNFTActivity low punyOk env info zc = ⟨.ok (), false⟩ := by
    simp [MintNFTActivity, h]
  refine ⟨h1, fun env' hc he ht hd => ?_⟩
  rw [h1]
  obtain ⟨tid, htid⟩ := Option.isSome_iff_exists.mp ht
  obtain ⟨dn, hdn⟩ := Option.isSome_iff_exists.mp hd
  simp [mintProceed, hc, he, htid, hdn]

def dupNFT : MirrorNodeNFT := ⟨"0.0.100".toList, 5, "example".toList, []⟩
def mintEnvDup : MintEnv := ⟨fun _ _ => .page [dupNFT] .missing, .ok (), .ok ()⟩

/-- Witness for C10: the collection's first page holds the domain's label, so
the mint returns success with no transaction attempted. -/
theorem mint_skip_duplicate_witness :
    isDomainAlreadyMinted asciiLow (fun _ => true) mintEnvDup.fetch
      mintInfoEx.domainName = .ok (true, dupNFT) ∧
    MintNFTActivity asciiLow (fun _ => true) mintEnvDup mintInfoEx zcEx =
      ⟨.ok (), false⟩ := by
  refine ⟨rfl, ?_⟩
  exact (mint_skip_duplicate asciiLow (fun _ => true) mintEnvDup mintInfoEx zcEx dupNFT rfl).1

/-! ## Claims C2 and C3: the bounded paginated duplicate search -/

/-- A page the loop passes through without terminating: a 200 page with no
matching item and a usable next link. -/
def cleanPage (expectedLabel : Str) (f : FetchResult) : Bool :=
  match f with
  | .page nfts .link => (nfts.find? (nftMatches expectedLabel)).isNone
  | _ => false

/-- Fetch outcomes the loop reports as an error: transport failure,
non-200/non-404 status, undecodable body. -/
def errorFetch : FetchResult → Bool
  | .transportError => true
  | .badStatus _ => true
  | .decodeFailure => true
  | _ => false

/-- Fetch outcomes the loop reports as "not found": a 404, or a matchless page
whose next link is absent or unparseable. -/
def terminalNotFoundFetch (label : Str) : FetchResult → Bool
  | .notFound404 => true
  | .page nfts next => (nfts.find? (nftMatches label)).isNone && decide (next ≠ .link)
  | _ => false

theorem searchFrom_skip_clean (fetch : Nat → Nat → FetchResult) (label : Str) :
    ∀ (k i r : Nat), (∀ j, j < k → cleanPage label (fetch pageSize (i + j)) = true) →
      searchFrom fetch label i (k + r) = searchFrom fetch label (i + k) r := by
  intro k
  induction k with
  | zero => intro i r _; simp
  | succ k ih =>
    intro i r hclean
    have h0 : cleanPage label (fetch pageSize i) = true := by
      have h := hclean 0 (by omega)
      rwa [Nat.add_zero] at h
    rcases hf : fetch pageSize i with _ | _ | code | _ | ⟨nfts, next⟩
    · rw [hf] at h0; simp [cleanPage] at h0
    · rw [hf] at h0; simp [cleanPage] at h0
    · rw [hf] at h0; simp [cleanPage] at h0
    · rw [hf] at h0; simp [cleanPage] at h0
    · rcases next with _ | _ | _
      · rw [hf] at h0; simp [cleanPage] at h0
      · rw [hf] at h0; simp [cleanPage] at h0
      · have hfind : nfts.find? (nftMatches label) = none := by
          rw [hf] at h0
          simpa [cleanPage, Option.isNone_iff_eq_none] using h0
        have step : searchFrom fetch label i (k + 1 + r) =
            searchFrom fetch label (i + 1) (k + r) := by
          rw [show k + 1 + r = (k + r) + 1 by omega]
          simp [searchFrom, hf, hfind]
        rw [step, ih (i + 1) r (fun j hj => by
          have h := hclean (j + 1) (by omega)
          rwa [show i + (j + 1) = i + 1 + j by omega] at h)]
        rw [show i + 1 + k = i + (k + 1) by omega]

theorem searchFrom_pages_le (fetch : Nat → Nat → FetchResult) (label : Str) :
    ∀ (r i : Nat), i + r ≤ maxPagesToCheck →
      (searchFrom fetch label i r).pagesFetched ≤ maxPagesToCheck := by
  intro r
  induction r with
  | zero => intro i _; simp [searchFrom]
  | succ r ih =>
    intro i hi
    rcases hf : fetch pageSize i with _ | _ | code | _ | ⟨nfts, next⟩
    · simp [searchFrom, hf]; omega
    · simp [searchFrom, hf]; omega
    · simp [searchFrom, hf]; omega
    · simp [searchFrom, hf]; omega
    · rcases hfind : nfts.find? (nftMatches label) with _ | nft
      · rcases next with _ | _ | _
        · simp [searchFrom, hf, hfind]; omega
        · simp [searchFrom, hf, hfind]; omega
        · have step : searchFrom fetch label i (r + 1) =
              searchFrom fetch label (i + 1) r := by
            simp [searchFrom, hf, hfind]
          rw [step]
          exact ih (i + 1) (by omega)
      · simp [searchFrom, hf, hfind]; omega

theorem searchFrom_error_iff (fetch : Nat → Nat → FetchResult) (label : Str) :
    ∀ (r i : Nat), ((searchFrom fetch label i r).outcome = .searchError ↔
      ∃ k, k < r ∧ (∀ j, j < k → cleanPage label (fetch pageSize (i + j)) = true) ∧
        errorFetch (fetch pageSize (i + k)) = true) := by
  intro r
  induction r with
  | zero => intro i; simp [searchFrom]
  | succ r ih =>
    intro i
    rcases hf : fetch pageSize i with _ | _ | code | _ | ⟨nfts, next⟩
    · constructor
      · intro _
        refine ⟨0, by omega, fun j hj => absurd hj (by omega), ?_⟩
        rw [Nat.add_zero, hf]; rfl
      · intro _; simp [searchFrom, hf]
    · constructor
      · intro h; exact absurd h (by simp [searchFrom, hf])
      · rintro ⟨k, hk, hclean, herr⟩
        exfalso
        cases k with
        | zero => rw [Nat.add_zero, hf] at herr; simp [errorFetch] at herr
        | succ k =>
          have h0 := hclean 0 (by omega)
          rw [Nat.add_zero, hf] at h0
          simp [cleanPage] at h0
    · constructor
      · intro _
        refine ⟨0, by omega, fun j hj => absurd hj (by omega), ?_⟩
        rw [Nat.add_zero, hf]; rfl
      · intro _; simp [searchFrom, hf]
    · constructor
      · intro _
        refine ⟨0, by omega, fun j hj => absurd hj (by omega), ?_⟩
        rw [Nat.add_zero, hf]; rfl
      · intro _; simp [searchFrom, hf]
    · rcases hfind : nfts.find? (nftMatches label) with _ | nft
      · rcases next with _ | _ | _
        · constructor
          · intro h; exact absurd h (by simp [searchFrom, hf, hfind])
          · rintro ⟨k, hk, hclean, herr⟩
            exfalso
            cases k with
            | zero => rw [Nat.add_zero, hf] at herr; simp [errorFetch] at herr
            | succ k =>
              have h0 := hclean 0 (by omega)
              rw [Nat.add_zero, hf] at h0
              simp [cleanPage] at h0
        · constructor
          · intro h; exact absurd h (by simp [searchFrom, hf, hfind])
          · rintro ⟨k, hk, hclean, herr⟩
            exfalso
            cases k with
            | zero => rw [Nat.add_zero, hf] at herr; simp [errorFetch] at herr
            | succ k =>
              have h0 := hclean 0 (by omega)
              rw [Nat.add_zero, hf] at h0
              simp [cleanPage] at h0
        · have lhs_eq : (searchFrom fetch label i (r + 1)).outcome =
              (searchFrom fetch label (i + 1) r).outcome := by
            simp [searchFrom, hf, hfind]
          rw [lhs_eq, ih (i + 1)]
          constructor
          · rintro ⟨k, hk, hclean, herr⟩
            refine ⟨k + 1, by omega, ?_, ?_⟩
            · intro j hj
              cases j with
              | zero => rw [Nat.add_zero, hf]; simp [cleanPage, hfind]
              | succ j =>
                have h := hclean j (by omega)
                rwa [show i + 1 + j = i + (j + 1) by omega] at h
            · rwa [show i + (k + 1) = i + 1 + k by omega]
          · rintro ⟨k, hk, hclean, herr⟩
            cases k with
            | zero =>
              rw [Nat.add_zero, hf] at herr
              simp [errorFetch] at herr
            | succ k =>
              refine ⟨k, by omega, ?_, ?_⟩
              · intro j hj
                have h := hclean (j + 1) (by omega)
                rwa [show i + (j + 1) = i + 1 + j by omega] at h
              · rwa [show i + 1 + k = i + (k + 1) by omega]
      · constructor
        · intro h; exact absurd h (by simp [searchFrom, hf, hfind])
        · rintro ⟨k, hk, hclean, herr⟩
          exfalso
          cases k with
          | zero => rw [Nat.add_zero, hf] at herr; simp [errorFetch] at herr
          | succ k =>
            have h0 := hclean 0 (by omega)
            rw [Nat.add_zero, hf] at h0
            rcases next with _ | _ | _ <;> simp [cleanPage, hfind] at h0

theorem searchFrom_notFound_iff (fetch : Nat → Nat → FetchResult) (label : Str) :
    ∀ (r i : Nat), ((searchFrom fetch label i r).outcome = .notFound ↔
      ((∀ j, j < r → cleanPage label (fetch pageSize (i + j)) = true) ∨
        ∃ k, k < r ∧ (∀ j, j < k → cleanPage label (fetch pageSize (i + j)) = true) ∧
          terminalNotFoundFetch label (fetch pageSize (i + k)) = true)) := by
  intro r
  induction r with
  | zero =>
    intro i
    constructor
    · intro _
      exact Or.inl (fun j hj => absurd hj (by omega))
    · intro _
      rfl
  | succ r ih =>
    intro i
    rcases hf : fetch pageSize i with _ | _ | code | _ | ⟨nfts, next⟩
    · constructor
      · intro h; exact absurd h (by simp [searchFrom, hf])
      · rintro (hall | ⟨k, hk, hclean, hterm⟩)
        · exfalso
          have h0 := hall 0 (by omega)
          rw [Nat.add_zero, hf] at h0
          simp [cleanPage] at h0
        · exfalso
          cases k with
          | zero => rw [Nat.add_zero, hf] at hterm; simp [terminalNotFoundFetch] at hterm
          | succ k =>
            have h0 := hclean 0 (by omega)
            rw [Nat.add_zero, hf] at h0
            simp [cleanPage] at h0
    · constructor
      · intro _
        refine Or.inr ⟨0, by omega, fun j hj => absurd hj (by omega), ?_⟩
        rw [Nat.add_zero, hf]; rfl
      · intro _; simp [searchFrom, hf]
    · constructor
      · intro h; exact absurd h (by simp [searchFrom, hf])
      · rintro (hall | ⟨k, hk, hclean, hterm⟩)
        · exfalso
          have h0 := hall 0 (by omega)
          rw [Nat.add_zero, hf] at h0
          simp [cleanPage] at h0
        · exfalso
          cases k with
          | zero => rw [Nat.add_zero, hf] at hterm; simp [terminalNotFoundFetch] at hterm
          | succ k =>
            have h0 := hclean 0 (by omega)
            rw [Nat.add_zero, hf] at h0
            simp [cleanPage] at h0
    · constructor
      · intro h; exact absurd h (by simp [searchFrom, hf])
      · rintro (hall | ⟨k, hk, hclean, hterm⟩)
        · exfalso
          have h0 := hall 0 (by omega)
          rw [Nat.add_zero, hf] at h0
          simp [cleanPage] at h0
        · exfalso
          cases k with
          | zero => rw [Nat.add_zero, hf] at hterm; simp [terminalNotFoundFetch] at hterm
          | succ k =>
            have h0 := hclean 0 (by omega)
            rw [Nat.add_zero, hf] at h0
            simp [cleanPage] at h0
    · rcases hfind : nfts.find? (nftMatches label) with _ | nft
      · rcases next with _ | _ | _
        · constructor
          · intro _
            refine Or.inr ⟨0, by omega, fun j hj => absurd hj (by omega), ?_⟩
            rw [Nat.add_zero, hf]
            simp [terminalNotFoundFetch, hfind]
          · intro _; simp [searchFrom, hf, hfind]
        · constructor
          · intro _
            refine Or.inr ⟨0, by omega, fun j hj => absurd hj (by omega), ?_⟩
            rw [Nat.add_zero, hf]
            simp [terminalNotFoundFetch, hfind]
          · intro _; simp [searchFrom, hf, hfind]
        · have lhs_eq : (searchFrom fetch label i (r + 1)).outcome =
              (searchFrom fetch label (i + 1) r).outcome := by
            simp [searchFrom, hf, hfind]
          have hclean0 : cleanPage label (fetch pageSize i) = true := by
            rw [hf]; simp [cleanPage, hfind]
          rw [lhs_eq, ih (i + 1)]
          constructor
          · rintro (hall | ⟨k, hk, hclean, hterm⟩)
            · refine Or.inl ?_
              intro j hj
              cases j with
              | zero => rwa [Nat.add_zero]
              | succ j =>
                have h := hall j (by omega)
                rwa [show i + 1 + j = i + (j + 1) by omega] at h
            · refine Or.inr ⟨k + 1, by omega, ?_, ?_⟩
              · intro j hj
                cases j with
                | zero => rwa [Nat.add_zero]
                | succ j =>
                  have h := hclean j (by omega)
                  rwa [show i + 1 + j = i + (j + 1) by omega] at h
              · rwa [show i + (k + 1) = i + 1 + k by omega]
          · rintro (hall | ⟨k, hk, hclean, hterm⟩)
            · refine Or.inl ?_
              intro j hj
              have h := hall (j + 1) (by omega)
              rwa [show i + (j + 1) = i + 1 + j by omega] at h
            · cases k with
              | zero =>
                exfalso
                rw [Nat.add_zero, hf] at hterm
                simp [terminalNotFoundFetch, hfind] at hterm
              | succ k =>
                refine Or.inr ⟨k, by omega, ?_, ?_⟩
                · intro j hj
                  have h := hclean (j + 1) (by omega)
                  rwa [show i + (j + 1) = i + 1 + j by omega] at h
                · rwa [show i + 1 + k = i + (k + 1) by omega]
      · constructor
        · intro h; exact absurd h (by simp [searchFrom, hf, hfind])
        · rintro (hall | ⟨k, hk, hclean, hterm⟩)
          · exfalso
            have h0 := hall 0 (by omega)
            rw [Nat.add_zero, hf] at h0
            rcases next with _ | _ | _ <;> simp [cleanPage, hfind] at h0
          · exfalso
            cases k with
            | zero =>
              rw [Nat.add_zero, hf] at hterm
              simp [terminalNotFoundFetch, hfind] at hterm
            | succ k =>
              have h0 := hclean 0 (by omega)
              rw [Nat.add_zero, hf] at h0
              rcases next with _ | _ | _ <;> simp [cleanPage, hfind] at h0

/-- C2: the per-item check accepts the trimmed metadata either as the raw
string or, when it base64-decodes, as the decoded string; and when the first
`k` pages of the chain are clean and page `k` (within the 50-page cap)
contains a match, the search returns "found" with the first matching item of
that earliest page after exactly `k + 1` page fetches — in particular a match
on page 1 (`k = 0`) is reported after exactly one fetch. -/
theorem search_found_on_earliest_page (fetch : Nat → Nat → FetchResult) (label : Str)
    (k : Nat) (nfts : List MirrorNodeNFT) (next : NextLink) (n : MirrorNodeNFT)
    (hk : k < maxPagesToCheck)
    (hclean : ∀ j, j < k → cleanPage label (fetch pageSize j) = true)
    (hpage : fetch pageSize k = .page nfts next)
    (hfind : nfts.find? (nftMatches label) = some n) :
    searchForDomainInCollection fetch label = ⟨.found n, k + 1⟩ ∧
    (∀ nft, nftMatches label nft = true ↔
      (trimSpace nft.metadata = label ∨
        ∃ d, base64Decode (trimSpace nft.metadata) = some d ∧ d = label)) := by
  constructor
  · unfold searchForDomainInCollection
    have hsplit : maxPagesToCheck = k + (maxPagesToCheck - k) := by omega
    rw [hsplit, searchFrom_skip_clean fetch label k 0 (maxPagesToCheck - k)
      (fun j hj => by rw [Nat.zero_add]; exact hclean j hj)]
    rw [Nat.zero_add]
    obtain ⟨m, hm⟩ : ∃ m, maxPagesToCheck - k = m + 1 :=
      ⟨maxPagesToCheck - k - 1, by omega⟩
    rw [hm]
    simp [searchFrom, hpage, hfind]
  · intro nft
    rcases hb : base64Decode (trimSpace nft.metadata) with _ | d
    · simp [nftMatches, hb]
    · simp only [nftMatches, hb]
      constructor
      · intro h
        simp only [Bool.or_eq_true, decide_eq_true_eq] at h
        rcases h with h1 | h1
        · exact Or.inr ⟨d, rfl, h1⟩
        · exact Or.inl h1
      · rintro (h | ⟨d', hd', h1⟩)
        · simp [h]
        · cases hd'
          simp [h1]

def c2NFT : MirrorNodeNFT := ⟨"0.0.200".toList, 9, "ZXhhbXBsZQ==".toList, []⟩
def c2Fetch : Nat → Nat → FetchResult := fun _ _ => .page [c2NFT] .missing

/-- Witness for C2: the first page holds an item whose base64 metadata decodes
to the canonical label `example`; the search reports it found after exactly
one page fetch. -/
theorem search_found_on_earliest_page_witness :
    (0 < maxPagesToCheck) ∧
    c2Fetch pageSize 0 = .page [c2NFT] .missing ∧
    [c2NFT].find? (nftMatches "example".toList) = some c2NFT ∧
    searchForDomainInCollection c2Fetch "example".toList = ⟨.found c2NFT, 1⟩ := by
  refine ⟨by decide, rfl, by decide, ?_⟩
  exact (search_found_on_earliest_page c2Fetch "example".toList 0 [c2NFT] .missing c2NFT
    (by decide) (fun j hj => absurd hj (by omega)) rfl (by decide)).1

/-- C3: the search fetches at most `maxPagesToCheck = 50` pages, each
requested with `limit = pageSize = 100` items; it reports an error exactly
when the first non-clean event of the page chain (within the cap) is a
transport failure, a non-200/non-404 status or an undecodable response; and
it reports "not found" exactly when the 50-page cap is exhausted on clean
pages, or the first non-clean event is a 404 or a matchless page whose chain
ends (no next link, or an unparseable one).  Being a total function, it
always terminates with one of the three `SearchOutcome`s. -/
theorem search_bounded_trichotomy (fetch : Nat → Nat → FetchResult) (label : Str) :
    maxPagesToCheck = 50 ∧ pageSize = 100 ∧
    (searchForDomainInCollection fetch label).pagesFetched ≤ maxPagesToCheck ∧
    ((searchForDomainInCollection fetch label).outcome = .searchError ↔
      ∃ k, k < maxPagesToCheck ∧ (∀ j, j < k → cleanPage label (fetch pageSize j) = true) ∧
        errorFetch (fetch pageSize k) = true) ∧
    ((searchForDomainInCollection fetch label).outcome = .notFound ↔
      ((∀ j, j < maxPagesToCheck → cleanPage label (fetch pageSize j) = true) ∨
        ∃ k, k < maxPagesToCheck ∧ (∀ j, j < k → cleanPage label (fetch pageSize j) = true) ∧
          terminalNotFoundFetch label (fetch pageSize k) = true)) := by
  refine ⟨rfl, rfl, ?_, ?_, ?_⟩
  · exact searchFrom_pages_le fetch label maxPagesToCheck 0 (by omega)
  · have h := searchFrom_error_iff fetch label maxPagesToCheck 0
    simpa using h
  · have h := searchFrom_notFound_iff fetch label maxPagesToCheck 0
    simpa using h

/-! ## Claim C7: Label.Validate priority order -/

theorem char_eq_of_toNat_eq {c d : Char} (h : c.toNat = d.toNat) : c = d := by
  simpa [Char.ext_iff, UInt32.ext_iff] using h

theorem strBytes_cons (c : Char) (s : Str) :
    strBytes (c :: s) = utf8Encode c ++ strBytes s := rfl

theorem strBytes_append (s t : Str) :
    strBytes (s ++ t) = strBytes s ++ strBytes t := by
  simp [strBytes]

theorem utf8Encode_ascii {c : Char} (h : c.toNat < 128) :
    utf8Encode c = [c.toNat] := by
  unfold utf8Encode
  rw [if_pos h]

theorem utf8Encode_big_head {c : Char} (h : 128 ≤ c.toNat) :
    ∃ b rest, utf8Encode c = b :: rest ∧ 0xC0 ≤ b := by
  unfold utf8Encode
  rw [if_neg (by omega)]
  split
  · exact ⟨_, _, rfl, by omega⟩
  · split
    · exact ⟨_, _, rfl, by omega⟩
    · exact ⟨_, _, rfl, by omega⟩

theorem utf8Encode_big_last {c : Char} (h : 128 ≤ c.toNat) :
    ∃ b, (utf8Encode c).getLast? = some b ∧ 128 ≤ b := by
  unfold utf8Encode
  rw [if_neg (by omega)]
  split
  · refine ⟨128 + c.toNat % 64, ?_, by omega⟩
    simp
  · split
    · refine ⟨128 + c.toNat % 64, ?_, by omega⟩
      simp
    · refine ⟨128 + c.toNat % 64, ?_, by omega⟩
      simp

theorem singleton_prefix_iff {α : Type _} (a : α) (l : List α) :
    [a] <+: l ↔ l.head? = some a := by
  cases l with
  | nil => simp
  | cons b bs =>
    rw [List.cons_prefix_cons]
    simp [eq_comm]

theorem singleton_suffix_iff {α : Type _} (a : α) (l : List α) :
    [a] <:+ l ↔ l.getLast? = some a := by
  constructor
  · rintro ⟨pre, rfl⟩
    simp [List.getLast?_append]
  · intro h
    cases l with
    | nil => simp at h
    | cons b bs =>
      have hne : b :: bs ≠ [] := by simp
      refine ⟨(b :: bs).dropLast, ?_⟩
      have := List.dropLast_append_getLast hne
      rw [List.getLast?_eq_getLast _ hne] at h
      injection h with h
      rw [h] at this
      exact this

/-- The code's byte-level leading-hyphen test is the leading character `-`. -/
theorem startsWith_hyphen_iff (t : Str) :
    startsWith "-".toList t = true ↔ t.head? = some '-' := by
  cases t with
  | nil =>
    constructor
    · intro h
      exact absurd h (by decide)
    · intro h
      simp at h
  | cons c cs =>
    have hb : strBytes "-".toList = [45] := by decide
    rw [startsWith, List.isPrefixOf_iff_prefix, hb, singleton_prefix_iff]
    rw [strBytes_cons]
    rcases Nat.lt_or_ge c.toNat 128 with hc | hc
    · rw [utf8Encode_ascii hc]
      simp only [List.cons_append, List.head?_cons, List.head?]
      constructor
      · intro h
        injection h with h
        have : c = '-' := char_eq_of_toNat_eq (by simpa using h)
        rw [this]
      · intro h
        injection h with h
        rw [h]
        decide
    · obtain ⟨b, rest, hbr, hge⟩ := utf8Encode_big_head hc
      rw [hbr]
      simp only [List.cons_append, List.head?_cons, List.head?]
      constructor
      · intro h
        injection h with h
        omega
      · intro h
        injection h with h
        exfalso
        rw [h] at hc
        exact absurd hc (by decide)

/-- The code's byte-level trailing-hyphen test is the trailing character `-`. -/
theorem endsWith_hyphen_iff (t : Str) :
    endsWith "-".toList t = true ↔ t.getLast? = some '-' := by
  have hb : strBytes "-".toList = [45] := by decide
  rw [endsWith, List.isSuffixOf_iff_suffix, hb, singleton_suffix_iff]
  induction t using List.reverseRecOn with
  | nil =>
    constructor
    · intro h; simp [strBytes] at h
    · intro h; simp at h
  | append_singleton s c _ =>
    rw [strBytes_append, List.getLast?_append, List.getLast?_append]
    have hl : (strBytes [c]).getLast? = (utf8Encode c).getLast? := by
      simp [strBytes]
    rw [hl]
    have hc : ([c] : Str).getLast? = some c := rfl
    rw [hc]
    rcases Nat.lt_or_ge c.toNat 128 with hsm | hbg
    · rw [utf8Encode_ascii hsm]
      simp only [List.getLast?_singleton, Option.or_some, Option.some.injEq]
      constructor
      · intro h
        exact char_eq_of_toNat_eq (by simpa using h)
      · intro h
        rw [h]
        decide
    · obtain ⟨b, hbeq, hge⟩ := utf8Encode_big_last hbg
      rw [hbeq]
      simp only [Option.or_some, Option.some.injEq]
      constructor
      · intro h; omega
      · intro h
        exfalso
        rw [h] at hbg
        exact absurd hbg (by decide)

/-- For an all-ASCII pattern, the code's byte-level prefix test is the
character-level prefix test. -/
theorem startsWith_ascii_iff (p : Str) (hp : ∀ c ∈ p, c.toNat < 128) :
    ∀ t : Str, (startsWith p t = true ↔ t.take p.length = p) := by
  induction p with
  | nil =>
    intro t
    simp [startsWith, strBytes]
  | cons c p ih =>
    intro t
    have hc : c.toNat < 128 := hp c (by simp)
    have hp' : ∀ d ∈ p, d.toNat < 128 := fun d hd => hp d (by simp [hd])
    cases t with
    | nil =>
      rw [startsWith, List.isPrefixOf_iff_prefix]
      constructor
      · intro h
        exfalso
        rw [strBytes_cons, utf8Encode_ascii hc] at h
        simp [strBytes] at h
      · intro h
        simp at h
    | cons d t =>
      rw [startsWith, List.isPrefixOf_iff_prefix, strBytes_cons, strBytes_cons,
        utf8Encode_ascii hc]
      rcases Nat.lt_or_ge d.toNat 128 with hd | hd
      · rw [utf8Encode_ascii hd]
        simp only [List.cons_append, List.nil_append, List.cons_prefix_cons,
          List.length_cons, List.take_succ_cons, List.cons.injEq]
        constructor
        · rintro ⟨h1, h2⟩
          have hcd : c = d := char_eq_of_toNat_eq h1
          refine ⟨hcd.symm, ?_⟩
          rw [← List.isPrefixOf_iff_prefix] at h2
          exact (ih hp' t).mp h2
        · rintro ⟨h1, h2⟩
          refine ⟨by rw [h1], ?_⟩
          rw [← List.isPrefixOf_iff_prefix]
          exact (ih hp' t).mpr h2
      · obtain ⟨b, rest, hbr, hge⟩ := utf8Encode_big_head hd
        rw [hbr]
        simp only [List.cons_append, List.nil_append, List.cons_prefix_cons,
          List.length_cons, List.take_succ_cons, List.cons.injEq]
        constructor
        · rintro ⟨h1, _⟩
          omega
        · rintro ⟨h1, _⟩
          exfalso
          rw [h1] at hd
          omega

theorem bool_eq_of_iff {a b : Bool} (h : a = true ↔ b = true) : a = b := by
  cases a <;> cases b <;> simp_all

theorem dd_take_implies_len {t : Str} (h : ((strBytes t).drop 2).take 2 = [45, 45]) :
    byteLen t > 3 := by
  have hlen := congrArg List.length h
  simp only [List.length_take, List.length_drop, List.length_cons,
    List.length_nil] at hlen
  unfold byteLen
  omega

/-- The claim's length condition: byte length outside 1–63. -/
def lenBadSpec (t : Str) : Bool := decide (byteLen t < 1 ∨ byteLen t > 63)

/-- The claim's dash condition: leading or trailing hyphen. -/
def dashBadSpec (t : Str) : Bool :=
  decide (t.head? = some '-') || decide (t.getLast? = some '-')

/-- The label has the IDNA `xn--` prefix (character-level). -/
def xnPrefixed (t : Str) : Bool := decide (t.take 4 = "xn--".toList)

/-- The claim's double-dash condition: `--` at byte positions 2–3 of a label
not prefixed `xn--`. -/
def ddBadSpec (t : Str) : Bool :=
  decide (((strBytes t).drop 2).take 2 = [45, 45]) && !xnPrefixed t

/-- The claim's IDNA condition: an `xn--`-prefixed label failing Punycode
decoding. -/
def idnaBadSpec (punyOk : Str → Bool) (t : Str) : Bool := xnPrefixed t && !punyOk t

/-- The claim's character condition: some character outside ASCII
letters/digits/hyphen. -/
def charBadSpec (t : Str) : Bool := t.any (fun c => !isValidLabelChar c)

/-- The first applicable error of the claim's fixed priority order, built from
independent condition predicates.  Modelled from the spec's wording of
`Label.Validate`'s error priority. -/
def labelFirstErrSpec (punyOk : Str → Bool) (t : Str) : Option LabelErr :=
  if lenBadSpec t then some .length
  else if dashBadSpec t then some .dash
  else if ddBadSpec t then some .doubleDash
  else if idnaBadSpec punyOk t then some .idn
  else if charBadSpec t then some .char
  else none

theorem startsWith_xn_eq (t : Str) : startsWith "xn--".toList t = xnPrefixed t := by
  apply bool_eq_of_iff
  simp only [xnPrefixed, decide_eq_true_eq]
  have h := startsWith_ascii_iff "xn--".toList (by decide) t
  simpa using h

/-- C7: `Label.Validate` returns exactly the first applicable error of the
fixed priority order — length outside 1–63 bytes, leading/trailing hyphen,
`--` at (byte) positions 2–3 of a non-`xn--` label, an `xn--` label failing
Punycode decoding, a character outside ASCII letters/digits/hyphen — and no
error otherwise; in particular `abc--def` validates while `ab--cdef` fails
with the double-dash error (for any Punycode oracle). -/
theorem labelValidate_priority_order (punyOk : Str → Bool) (t : Str) :
    labelValidate punyOk t = labelFirstErrSpec punyOk t ∧
    labelValidate punyOk "abc--def".toList = none ∧
    labelValidate punyOk "ab--cdef".toList = some .doubleDash := by
  refine ⟨?_, rfl, rfl⟩
  have e1 : (decide (byteLen t > 63) || decide (byteLen t < 1)) = lenBadSpec t := by
    apply bool_eq_of_iff
    simp only [Bool.or_eq_true, lenBadSpec, decide_eq_true_eq]
    exact or_comm
  have e2 : (startsWith "-".toList t || endsWith "-".toList t) = dashBadSpec t := by
    apply bool_eq_of_iff
    simp only [Bool.or_eq_true, dashBadSpec, decide_eq_true_eq]
    exact or_congr (startsWith_hyphen_iff t) (endsWith_hyphen_iff t)
  have e3 : (decide (byteLen t > 3) && !startsWith "xn--".toList t &&
      decide (((strBytes t).drop 2).take 2 = [45, 45])) = ddBadSpec t := by
    rw [startsWith_xn_eq]
    apply bool_eq_of_iff
    simp only [ddBadSpec, Bool.and_eq_true, Bool.not_eq_true', decide_eq_true_eq]
    constructor
    · rintro ⟨⟨_, hxn⟩, heq⟩
      exact ⟨heq, hxn⟩
    · rintro ⟨heq, hxn⟩
      exact ⟨⟨dd_take_implies_len heq, hxn⟩, heq⟩
  have e4 : (startsWith "xn--".toList t && !punyOk t) = idnaBadSpec punyOk t := by
    rw [startsWith_xn_eq, idnaBadSpec]
  have e5 : charBadSpec t = !(t.all isValidLabelChar) := by
    apply bool_eq_of_iff
    simp [charBadSpec, List.any_eq_true, List.all_eq_true]
  unfold labelValidate labelFirstErrSpec
  rw [← e1, ← e2, ← e3, ← e4, e5]
  split_ifs <;> simp_all
  rename_i hall hex
  obtain ⟨x, hx, hfx⟩ := hex
  have hvx := hall x hx
  rw [hvx] at hfx
  exact absurd hfx (by simp)

/-! ## Claim C8: normalization order (lowercase first vs. lowercase last) -/

/-- The properties of Go's per-rune `unicode.ToLower` that the normalization
pipeline relies on: whitespace characters are uncased, nothing lowercases into
whitespace, and `.` is fixed and only reached from itself. -/
structure LowerLike (low : Char → Char) : Prop where
  fixes_space : ∀ c, isSpace c = true → low c = c
  space_inv : ∀ c, isSpace (low c) = isSpace c
  fixes_dot : low '.' = '.'
  dot_inj : ∀ c, low c = '.' → c = '.'

theorem replaceAllChar_map (low : Char → Char) (h : LowerLike low) (a : Char)
    (ha : isSpace a = true) (s : Str) :
    replaceAllChar a ' ' (toLowerStr low s) = toLowerStr low (replaceAllChar a ' ' s) := by
  unfold replaceAllChar toLowerStr
  rw [List.map_map, List.map_map]
  apply List.map_congr_left
  intro c _
  simp only [Function.comp_apply]
  by_cases hc : c = a
  · subst hc
    rw [h.fixes_space c ha, if_pos rfl]
    exact (h.fixes_space ' ' (by decide)).symm
  · rw [if_neg hc, if_neg ?_]
    intro hlc
    apply hc
    have h1 : isSpace (low c) = true := by rw [hlc]; exact ha
    rw [h.space_inv c] at h1
    rw [← h.fixes_space c h1, hlc]

theorem fieldsAux_map (low : Char → Char) (h : LowerLike low) :
    ∀ (s acc : Str), fieldsAux (toLowerStr low acc) (toLowerStr low s) =
      (fieldsAux acc s).map (toLowerStr low) := by
  intro s
  induction s with
  | nil =>
    intro acc
    by_cases hacc : acc = []
    · subst hacc; rfl
    · have hacc' : toLowerStr low acc ≠ [] := by
        simpa [toLowerStr] using hacc
      simp [fieldsAux, hacc, hacc', toLowerStr, List.map_reverse]
  | cons c cs ih =>
    intro acc
    have hLHS : toLowerStr low (c :: cs) = low c :: toLowerStr low cs := rfl
    rw [hLHS]
    by_cases hc : isSpace c = true
    · have hlc : isSpace (low c) = true := by rw [h.space_inv c]; exact hc
      by_cases hacc : acc = []
      · subst hacc
        simp only [fieldsAux, hc, hlc, if_true, toLowerStr, List.map_nil]
        have := ih ([] : Str)
        simpa [toLowerStr] using this
      · have hacc' : toLowerStr low acc ≠ [] := by
          simpa [toLowerStr] using hacc
        simp only [fieldsAux, hc, hlc, if_true]
        rw [if_neg hacc', if_neg hacc]
        have h0 := ih ([] : Str)
        simp only [toLowerStr, List.map_nil] at h0
        simp [h0, toLowerStr, List.map_reverse]
    · have hlc : ¬ (isSpace (low c) = true) := by rw [h.space_inv c]; exact hc
      simp only [fieldsAux, hc, hlc, if_false]
      have := ih (c :: acc)
      simpa [toLowerStr] using this

theorem fields_map (low : Char → Char) (h : LowerLike low) (s : Str) :
    fields (toLowerStr low s) = (fields s).map (toLowerStr low) := by
  unfold fields
  have := fieldsAux_map low h s []
  simpa [toLowerStr] using this

theorem joinWithSpace_map (low : Char → Char) (h : LowerLike low) :
    ∀ l : List Str, joinWithSpace (l.map (toLowerStr low)) =
      toLowerStr low (joinWithSpace l) := by
  intro l
  induction l with
  | nil => rfl
  | cons x xs ih =>
    cases xs with
    | nil => rfl
    | cons y ys =>
      have e1 : joinWithSpace (toLowerStr low x :: toLowerStr low y ::
          List.map (toLowerStr low) ys) =
          toLowerStr low x ++ ' ' :: joinWithSpace (toLowerStr low y ::
            List.map (toLowerStr low) ys) := rfl
      have e2 : joinWithSpace (x :: y :: ys) = x ++ ' ' :: joinWithSpace (y :: ys) := rfl
      simp only [List.map_cons] at ih ⊢
      rw [e1, ih, e2]
      simp [toLowerStr, h.fixes_space ' ' (by decide)]

theorem removeTrailingDot_map (low : Char → Char) (h : LowerLike low) (s : Str) :
    removeTrailingDot (toLowerStr low s) = toLowerStr low (removeTrailingDot s) := by
  unfold removeTrailingDot toLowerStr
  rw [List.getLast?_map]
  by_cases hd : s.getLast? = some '.'
  · rw [hd, if_pos (by simp [h.fixes_dot]), if_pos rfl]
    exact (List.map_dropLast low s).symm
  · rw [if_neg ?_, if_neg hd]
    intro hcon
    rcases hgl : s.getLast? with _ | c
    · rw [hgl] at hcon; simp at hcon
    · rw [hgl] at hcon
      simp only [Option.map] at hcon
      injection hcon with hcon
      exact hd (by rw [hgl, h.dot_inj c hcon])

theorem dropWhile_isSpace_map (low : Char → Char) (h : LowerLike low) (s : Str) :
    (toLowerStr low s).dropWhile isSpace = toLowerStr low (s.dropWhile isSpace) := by
  unfold toLowerStr
  rw [List.dropWhile_map]
  have he : (isSpace ∘ low) = isSpace := funext h.space_inv
  rw [he]

theorem trimSpace_map (low : Char → Char) (h : LowerLike low) (s : Str) :
    trimSpace (toLowerStr low s) = toLowerStr low (trimSpace s) := by
  unfold trimSpace
  rw [dropWhile_isSpace_map low h s]
  rw [show (toLowerStr low (s.dropWhile isSpace)).reverse =
    toLowerStr low (s.dropWhile isSpace).reverse from (List.map_reverse _ _).symm]
  rw [dropWhile_isSpace_map low h]
  rw [show (toLowerStr low ((s.dropWhile isSpace).reverse.dropWhile isSpace)).reverse =
    toLowerStr low ((s.dropWhile isSpace).reverse.dropWhile isSpace).reverse from
    (List.map_reverse _ _).symm]

theorem NormalizeString_map (low : Char → Char) (h : LowerLike low) (s : Str) :
    NormalizeString (toLowerStr low s) = toLowerStr low (NormalizeString s) := by
  unfold NormalizeString replaceMultipleSpaces
  rw [replaceAllChar_map low h '\n' (by decide),
    replaceAllChar_map low h '\t' (by decide),
    replaceAllChar_map low h '\r' (by decide),
    fields_map low h, joinWithSpace_map low h,
    removeTrailingDot_map low h, trimSpace_map low h]

theorem ofNat_toNat_in_lower {n : Nat} (h1 : 97 ≤ n) (h2 : n ≤ 122) :
    (Char.ofNat n).toNat = n := by
  interval_cases n <;> decide

theorem isSpace_eq_false_of_range {c : Char} (h1 : 45 ≤ c.toNat) (h2 : c.toNat ≤ 122) :
    isSpace c = false := by
  simp only [isSpace, decide_eq_false_iff_not]
  omega

theorem asciiLow_toNat {c : Char} (h : 65 ≤ c.toNat ∧ c.toNat ≤ 90) :
    (asciiLow c).toNat = c.toNat + 32 := by
  unfold asciiLow
  rw [if_pos h]
  exact ofNat_toNat_in_lower (by omega) (by omega)

theorem asciiLow_lowerLike : LowerLike asciiLow := by
  refine ⟨?_, ?_, by decide, ?_⟩
  · intro c hc
    unfold asciiLow
    rw [if_neg ?_]
    rintro ⟨h1, h2⟩
    rw [isSpace_eq_false_of_range (by omega) (by omega)] at hc
    exact absurd hc (by simp)
  · intro c
    by_cases h : 65 ≤ c.toNat ∧ c.toNat ≤ 90
    · have ht := asciiLow_toNat h
      rw [@isSpace_eq_false_of_range (asciiLow c) (by omega) (by omega),
        @isSpace_eq_false_of_range c (by omega) (by omega)]
    · unfold asciiLow
      rw [if_neg h]
  · intro c hc
    by_cases h : 65 ≤ c.toNat ∧ c.toNat ≤ 90
    · exfalso
      have ht := asciiLow_toNat h
      rw [hc] at ht
      have : ('.').toNat = 46 := by decide
      omega
    · unfold asciiLow at hc
      rwa [if_neg h] at hc

theorem asciiLow_not_upper {x : Char} (h : ¬(65 ≤ x.toNat ∧ x.toNat ≤ 90)) :
    asciiLow x = x := by
  unfold asciiLow
  rw [if_neg h]

theorem asciiLow_idem (c : Char) : asciiLow (asciiLow c) = asciiLow c := by
  by_cases h : 65 ≤ c.toNat ∧ c.toNat ≤ 90
  · have ht := asciiLow_toNat h
    apply asciiLow_not_upper
    omega
  · rw [asciiLow_not_upper h]
    exact asciiLow_not_upper h

/-- The normalization the constructor actually performs: lowercase first, then
`NormalizeString` (as in `NewDomainName`). -/
def normalizeImpl (low : Char → Char) (s : Str) : Str :=
  NormalizeString (toLowerStr low s)

/-- Modelled from the spec: the same pipeline applied in the spec's stated
order — replace newline/tab/CR, collapse whitespace, strip one trailing dot,
trim — with lowercasing LAST. -/
def normalizeSpecOrder (low : Char → Char) (s : Str) : Str :=
  toLowerStr low (NormalizeString s)

/-- C8: for any case mapping with the properties of Go's `unicode.ToLower`
(`LowerLike`), the constructor's normalization (lowercase first) produces the
same candidate string as the spec's pipeline with lowercasing last, for every
input; in particular normalizing `EXAMPLE.COM.` yields `example.com`, which
constructs successfully as a `DomainName` (for any Punycode oracle). -/
theorem normalize_lowercase_commutes (low : Char → Char) (h : LowerLike low) :
    (∀ s, normalizeImpl low s = normalizeSpecOrder low s) ∧
    normalizeImpl asciiLow "EXAMPLE.COM.".toList = "example.com".toList ∧
    (∀ punyOk, NewDomainName asciiLow punyOk "EXAMPLE.COM.".toList =
      some "example.com".toList) := by
  refine ⟨fun s => NormalizeString_map low h s, by decide, fun punyOk => rfl⟩

/-- Witness for C8 at the ASCII case mapping (Go's `ToLower` on ASCII input). -/
theorem normalize_lowercase_commutes_witness :
    LowerLike asciiLow ∧
    normalizeImpl asciiLow "EXAMPLE.COM.".toList =
      normalizeSpecOrder asciiLow "EXAMPLE.COM.".toList :=
  ⟨asciiLow_lowerLike,
    (normalize_lowercase_commutes asciiLow asciiLow_lowerLike).1 "EXAMPLE.COM.".toList⟩

/-! ## Claim C9: idempotence of DomainName construction -/

theorem splitChar_ne_nil (sep : Char) (s : Str) : splitChar sep s ≠ [] := by
  cases s with
  | nil => simp [splitChar]
  | cons c cs =>
    unfold splitChar
    by_cases h : c = sep
    · simp [h]
    · simp only [if_neg h]
      rcases splitChar sep cs with _ | ⟨hd, tl⟩ <;> simp

theorem mem_splitChar {sep c : Char} {s : Str} (h : c ∈ s) :
    c = sep ∨ ∃ part ∈ splitChar sep s, c ∈ part := by
  induction s with
  | nil => simp at h
  | cons x xs ih =>
    by_cases hx : x = sep
    · subst hx
      rcases List.mem_cons.mp h with rfl | h2
      · exact Or.inl rfl
      · rcases ih h2 with h3 | ⟨part, hp, hc⟩
        · exact Or.inl h3
        · refine Or.inr ⟨part, ?_, hc⟩
          simp only [splitChar, if_pos rfl]
          exact List.mem_cons_of_mem _ hp
    · rcases hr : splitChar sep xs with _ | ⟨hd, tl⟩
      · exact absurd hr (splitChar_ne_nil sep xs)
      · have hsplit : splitChar sep (x :: xs) = (x :: hd) :: tl := by
          simp only [splitChar, if_neg hx, hr]
        rcases List.mem_cons.mp h with rfl | h2
        · exact Or.inr ⟨c :: hd, by rw [hsplit]; simp, by simp⟩
        · rcases ih h2 with h3 | ⟨part, hp, hc⟩
          · exact Or.inl h3
          · rw [hr] at hp
            rcases List.mem_cons.mp hp with rfl | hp2
            · exact Or.inr ⟨x :: part, by rw [hsplit]; simp, by simp [hc]⟩
            · exact Or.inr ⟨part, by rw [hsplit]; simp [hp2], hc⟩

theorem splitChar_cons_eq (sep : Char) (s : Str) :
    splitChar sep (sep :: s) = [] :: splitChar sep s := by
  simp [splitChar]

theorem splitChar_cons_ne {sep c : Char} (h : ¬ c = sep) (s : Str) :
    splitChar sep (c :: s) =
      match splitChar sep s with
      | [] => [[c]]
      | hd :: tl => (c :: hd) :: tl := by
  simp [splitChar, h]

theorem splitChar_append_sep (sep : Char) (xs : Str) :
    splitChar sep (xs ++ [sep]) = splitChar sep xs ++ [[]] := by
  induction xs with
  | nil => simp [splitChar]
  | cons c cs ih =>
    rw [List.cons_append]
    by_cases h : c = sep
    · subst h
      rw [splitChar_cons_eq, splitChar_cons_eq, ih]
      rfl
    · rw [splitChar_cons_ne h, splitChar_cons_ne h, ih]
      rcases hr : splitChar sep cs with _ | ⟨hd, tl⟩
      · exact absurd hr (splitChar_ne_nil sep cs)
      · simp

theorem labelValidate_none_all {punyOk : Str → Bool} {t : Str}
    (h : labelValidate punyOk t = none) : t.all isValidLabelChar = true := by
  unfold labelValidate at h
  split_ifs at h <;> simp_all

theorem map_id_of_mem {f : Char → Char} {s : Str} (h : ∀ c ∈ s, f c = c) :
    s.map f = s := by
  induction s with
  | nil => rfl
  | cons c cs ih =>
    simp only [List.map_cons, h c (by simp), List.cons.injEq, true_and]
    exact ih (fun x hx => h x (by simp [hx]))

theorem dropWhile_eq_self_of_head {p : Char → Bool} {s : Str}
    (h : ∀ c, s.head? = some c → p c = false) : s.dropWhile p = s := by
  cases s with
  | nil => rfl
  | cons c cs => simp [List.dropWhile_cons, h c rfl]

theorem mem_trimSpace {c : Char} {s : Str} (h : c ∈ trimSpace s) : c ∈ s := by
  unfold trimSpace at h
  rw [List.mem_reverse] at h
  have h1 := List.Sublist.mem h (List.dropWhile_sublist isSpace)
  rw [List.mem_reverse] at h1
  exact List.Sublist.mem h1 (List.dropWhile_sublist isSpace)

theorem mem_trimDots {c : Char} {s : Str} (h : c ∈ trimDots s) : c ∈ s := by
  unfold trimDots at h
  rw [List.mem_reverse] at h
  have h1 := List.Sublist.mem h (List.dropWhile_sublist _)
  rw [List.mem_reverse] at h1
  exact List.Sublist.mem h1 (List.dropWhile_sublist _)

theorem mem_removeTrailingDot {c : Char} {s : Str} (h : c ∈ removeTrailingDot s) :
    c ∈ s := by
  unfold removeTrailingDot at h
  split_ifs at h
  · exact List.Sublist.mem h (List.dropLast_sublist s)
  · exact h

theorem mem_joinWithSpace {c : Char} :
    ∀ {l : List Str}, c ∈ joinWithSpace l → (∃ f ∈ l, c ∈ f) ∨ c = ' ' := by
  intro l
  induction l with
  | nil => intro h; simp [joinWithSpace] at h
  | cons x xs ih =>
    intro h
    cases xs with
    | nil =>
      exact Or.inl ⟨x, by simp, h⟩
    | cons y ys =>
      have he : joinWithSpace (x :: y :: ys) = x ++ ' ' :: joinWithSpace (y :: ys) := rfl
      rw [he, List.mem_append] at h
      rcases h with h | h
      · exact Or.inl ⟨x, by simp, h⟩
      · rcases List.mem_cons.mp h with rfl | h2
        · exact Or.inr rfl
        · rcases ih h2 with ⟨f, hf, hc⟩ | h3
          · exact Or.inl ⟨f, by simp [List.mem_cons.mp hf], hc⟩
          · exact Or.inr h3

theorem mem_fieldsAux {c : Char} :
    ∀ {s acc f : Str}, f ∈ fieldsAux acc s → c ∈ f → c ∈ s ∨ c ∈ acc := by
  intro s
  induction s with
  | nil =>
    intro acc f hf hc
    unfold fieldsAux at hf
    split_ifs at hf
    · simp at hf
    · rw [List.mem_singleton] at hf
      subst hf
      exact Or.inr (List.mem_reverse.mp hc)
  | cons x xs ih =>
    intro acc f hf hc
    unfold fieldsAux at hf
    split_ifs at hf
    · rcases ih hf hc with h | h
      · exact Or.inl (by simp [h])
      · simp at h
    · rcases List.mem_cons.mp hf with rfl | hf2
      · exact Or.inr (List.mem_reverse.mp hc)
      · rcases ih hf2 hc with h | h
        · exact Or.inl (by simp [h])
        · simp at h
    · rcases ih hf hc with h | h
      · exact Or.inl (by simp [h])
      · rcases List.mem_cons.mp h with rfl | h2
        · exact Or.inl (by simp)
        · exact Or.inr h2

theorem mem_fields {c : Char} {s f : Str} (hf : f ∈ fields s) (hc : c ∈ f) : c ∈ s := by
  rcases mem_fieldsAux hf hc with h | h
  · exact h
  · simp at h

theorem mem_replaceAllChar {c a b : Char} {s : Str} (h : c ∈ replaceAllChar a b s) :
    c ∈ s ∨ c = b := by
  unfold replaceAllChar at h
  rcases List.mem_map.mp h with ⟨x, hx, hfx⟩
  by_cases hxa : x = a
  · subst hxa
    rw [if_pos rfl] at hfx
    exact Or.inr hfx.symm
  · rw [if_neg hxa] at hfx
    subst hfx
    exact Or.inl hx

theorem mem_NormalizeString {c : Char} {s : Str} (h : c ∈ NormalizeString s) :
    c ∈ s ∨ c = ' ' := by
  unfold NormalizeString replaceMultipleSpaces at h
  have h1 := mem_removeTrailingDot (mem_trimSpace h)
  rcases mem_joinWithSpace h1 with ⟨f, hf, hc⟩ | hsp
  · have h2 := mem_fields hf hc
    rcases mem_replaceAllChar h2 with h3 | hsp
    · rcases mem_replaceAllChar h3 with h4 | hsp
      · rcases mem_replaceAllChar h4 with h5 | hsp
        · exact Or.inl h5
        · exact Or.inr hsp
      · exact Or.inr hsp
    · exact Or.inr hsp
  · exact Or.inr hsp

theorem fieldsAux_no_space :
    ∀ (s : Str), (∀ c ∈ s, isSpace c = false) →
      ∀ acc : Str, acc ≠ [] ∨ s ≠ [] → fieldsAux acc s = [acc.reverse ++ s] := by
  intro s
  induction s with
  | nil =>
    intro _ acc h
    rcases h with h | h
    · simp [fieldsAux, h]
    · simp at h
  | cons c cs ih =>
    intro hs acc _
    have hc : isSpace c = false := hs c (by simp)
    unfold fieldsAux
    rw [if_neg (by simp [hc])]
    rw [ih (fun x hx => hs x (by simp [hx])) (c :: acc) (Or.inl (by simp))]
    simp

theorem fields_no_space {s : Str} (hs : ∀ c ∈ s, isSpace c = false) (hne : s ≠ []) :
    fields s = [s] := by
  unfold fields
  rw [fieldsAux_no_space s hs [] (Or.inr hne)]
  simp

theorem dropWhile_eq_self_of_all {p : Char → Bool} {s : Str}
    (h : ∀ c ∈ s, p c = false) : s.dropWhile p = s := by
  cases s with
  | nil => rfl
  | cons c cs => simp [List.dropWhile_cons, h c (by simp)]

theorem domainValidate_parts {punyOk : Str → Bool} {d : Str}
    (hv : domainValidate punyOk d = none) :
    ∀ part ∈ splitChar '.' d, labelValidate punyOk part = none := by
  unfold domainValidate at hv
  split_ifs at hv
  intro part hp
  rw [Option.map_eq_none'] at hv
  exact List.findSome?_eq_none_iff.mp hv part hp

theorem domainValidate_ne_nil {punyOk : Str → Bool} {d : Str}
    (hv : domainValidate punyOk d = none) : d ≠ [] := by
  intro hd0
  subst hd0
  simp [domainValidate, byteLen, strBytes] at hv

theorem domainValidate_chars {punyOk : Str → Bool} {d : Str}
    (hv : domainValidate punyOk d = none) :
    ∀ c ∈ d, 45 ≤ c.toNat ∧ c.toNat ≤ 122 := by
  intro c hc
  rcases @mem_splitChar '.' c d hc with hdot | ⟨part, hp, hcp⟩
  · subst hdot
    decide
  · have hall := labelValidate_none_all (domainValidate_parts hv part hp)
    have hvc := List.all_eq_true.mp hall c hcp
    simp only [isValidLabelChar, decide_eq_true_eq] at hvc
    omega

theorem domainValidate_getLast_ne_dot {punyOk : Str → Bool} {d : Str}
    (hv : domainValidate punyOk d = none) : d.getLast? ≠ some '.' := by
  intro hgl
  have hdne := domainValidate_ne_nil hv
  have hd2 : d = d.dropLast ++ ['.'] := by
    have h1 := List.dropLast_append_getLast hdne
    rw [List.getLast?_eq_getLast d hdne] at hgl
    injection hgl with hgl
    rw [hgl] at h1
    exact h1.symm
  have hmem : ([] : Str) ∈ splitChar '.' d := by
    rw [hd2, splitChar_append_sep]
    simp
  have hnone := domainValidate_parts hv [] hmem
  simp [labelValidate, byteLen, strBytes] at hnone

theorem domainValidate_head_ne_dot {punyOk : Str → Bool} {d : Str}
    (hv : domainValidate punyOk d = none) : d.head? ≠ some '.' := by
  intro hh
  rcases hd : d with _ | ⟨c, t⟩
  · rw [hd] at hh; simp at hh
  · rw [hd] at hh
    injection hh with hh
    subst hh
    have hmem : ([] : Str) ∈ splitChar '.' d := by
      rw [hd, splitChar_cons_eq]
      simp
    have hnone := domainValidate_parts hv [] hmem
    simp [labelValidate, byteLen, strBytes] at hnone

/-- Every string that passes validation and whose characters are fixed by the
case mapping is a fixpoint of the whole `NewDomainName` pipeline. -/
theorem NewDomainName_fixpoint (low : Char → Char) (punyOk : Str → Bool) (d : Str)
    (hm : ∀ c ∈ d, low c = c)
    (hv : domainValidate punyOk d = none) :
    NewDomainName low punyOk d = some d := by
  have hdne := domainValidate_ne_nil hv
  have hchar := domainValidate_chars hv
  have hlast := domainValidate_getLast_ne_dot hv
  have hhead := domainValidate_head_ne_dot hv
  have hnospace : ∀ c ∈ d, isSpace c = false := fun c hc =>
    isSpace_eq_false_of_range (hchar c hc).1 (hchar c hc).2
  have hmap : toLowerStr low d = d := map_id_of_mem hm
  have hne : ∀ (a : Char), a.toNat < 45 → ∀ c ∈ d, ¬ c = a := by
    intro a ha c hc hcon
    have := hchar c hc
    rw [hcon] at this
    omega
  have hr1 : replaceAllChar '\n' ' ' d = d := by
    apply map_id_of_mem
    intro c hc
    rw [if_neg (hne '\n' (by decide) c hc)]
  have hr2 : replaceAllChar '\t' ' ' d = d := by
    apply map_id_of_mem
    intro c hc
    rw [if_neg (hne '\t' (by decide) c hc)]
  have hr3 : replaceAllChar '\r' ' ' d = d := by
    apply map_id_of_mem
    intro c hc
    rw [if_neg (hne '\r' (by decide) c hc)]
  have hfields : fields d = [d] := fields_no_space hnospace hdne
  have hrtd : removeTrailingDot d = d := by
    unfold removeTrailingDot
    rw [if_neg hlast]
  have htrim : trimSpace d = d := by
    unfold trimSpace
    rw [dropWhile_eq_self_of_all hnospace,
      dropWhile_eq_self_of_all (fun c hc => hnospace c (List.mem_reverse.mp hc)),
      List.reverse_reverse]
  have hns : NormalizeString d = d := by
    unfold NormalizeString replaceMultipleSpaces
    rw [hr1, hr2, hr3, hfields]
    rw [show joinWithSpace [d] = d from rfl, hrtd, htrim]
  have htd : trimDots d = d := by
    unfold trimDots
    have e1 : d.dropWhile (fun c => decide (c = '.')) = d := by
      apply dropWhile_eq_self_of_head
      intro c hc
      simp only [decide_eq_false_iff_not]
      intro hcon
      subst hcon
      exact hhead hc
    rw [e1]
    have e2 : d.reverse.dropWhile (fun c => decide (c = '.')) = d.reverse := by
      apply dropWhile_eq_self_of_head
      intro c hc
      rw [List.head?_reverse] at hc
      simp only [decide_eq_false_iff_not]
      intro hcon
      subst hcon
      exact hlast hc
    rw [e2, List.reverse_reverse]
  simp only [NewDomainName, hmap, hns, htd, hv]

/-- C9: `NewDomainName` is idempotent on its own output: if it accepts `s`
producing `d`, then applied to `d` it succeeds and returns `d` itself — the
normalize-then-validate pipeline is a fixpoint on every accepted value (for
any idempotent per-rune case mapping; Go's `unicode.ToLower` is idempotent). -/
theorem NewDomainName_idempotent (low : Char → Char) (punyOk : Str → Bool)
    (s d : Str) (hidem : ∀ c, low (low c) = low c)
    (h : NewDomainName low punyOk s = some d) :
    NewDomainName low punyOk d = some d := by
  unfold NewDomainName at h
  rcases hv : domainValidate punyOk (trimDots (NormalizeString (toLowerStr low s)))
    with _ | e
  · rw [hv] at h
    have h2 : trimDots (NormalizeString (toLowerStr low s)) = d := by
      injection h
    subst h2
    apply NewDomainName_fixpoint
    · intro c hc
      have hrange := domainValidate_chars hv c hc
      rcases mem_NormalizeString (mem_trimDots hc) with hmem2 | hsp
      · rcases List.mem_map.mp hmem2 with ⟨c0, _, hc0⟩
        rw [← hc0, hidem]
      · exfalso
        rw [hsp] at hrange
        exact absurd hrange (by decide)
    · exact hv
  · rw [hv] at h
    exact Option.noConfusion (show (none : Option Str) = some d from h)

/-- Witness for C9: `EXAMPLE.COM.` constructs to `example.com`, and feeding
`example.com` back in returns it unchanged. -/
theorem NewDomainName_idempotent_witness :
    (∀ c, asciiLow (asciiLow c) = asciiLow c) ∧
    NewDomainName asciiLow (fun _ => true) "EXAMPLE.COM.".toList =
      some "example.com".toList ∧
    NewDomainName asciiLow (fun _ => true) "example.com".toList =
      some "example.com".toList := by
  refine ⟨asciiLow_idem, rfl, ?_⟩
  exact NewDomainName_idempotent asciiLow (fun _ => true) "EXAMPLE.COM.".toList
    "example.com".toList asciiLow_idem rfl
